import Mathlib

/-!
# Verification of `pa-permission-denied-simulator` (src/main.py)

Shallow embedding of the permission-mutation tool.  The filesystem is a
finite tree of named entries carrying POSIX mode bits; `os.chmod` errors are
modelled by a per-entry `chmodFails` flag (chmod on that entry raises
`OSError`).  The traversal (`process_path` with `os.walk` + `os.listdir`),
the per-entry mutation (`apply_permission_change`) and the CLI driver
(`main`, after argument parsing and path resolution) are translated
directly from `src/main.py`.
-/

namespace PermSim

/-- An octal digit `'0'..'7'`. -/
def isOctDigit (c : Char) : Bool := '0' ≤ c && c ≤ '7'

/-- Numeric value of an octal digit character. -/
def octDigitVal (c : Char) : Nat := c.toNat - '0'.toNat

/-- Digit scanner for Python's `int(s, 8)`: octal digits possibly separated
by single underscores.  `au` is true when an underscore is not allowed at
the current position (at the very start without a `0o` prefix, or right
after another underscore); `sd` records whether a digit has been seen. -/
def octCore : List Char → Bool → Bool → Nat → Option Nat
  | [], au, sd, acc => if sd && !au then some acc else none
  | c :: rest, au, sd, acc =>
    if isOctDigit c then octCore rest false true (acc * 8 + octDigitVal c)
    else if c = '_' then (if au then none else octCore rest true sd acc)
    else none

/-- Python's `str.strip`-style whitespace trimming used by `int`. -/
def pyStrip (cs : List Char) : List Char :=
  ((cs.dropWhile Char.isWhitespace).reverse.dropWhile Char.isWhitespace).reverse

/-- Models Python's `int(s, 8)` (line 92 of `src/main.py`) on ASCII input:
surrounding whitespace is stripped, an optional sign and an optional
`0o`/`0O` prefix are accepted, followed by octal digits that may be
separated by single underscores (an underscore may also follow the prefix).
Returns `none` where `int` raises `ValueError`. -/
def parsePyIntBase8 (s : String) : Option Int :=
  let cs := pyStrip s.data
  let signed : Bool × List Char :=
    match cs with
    | c :: rest =>
      if c = '-' then (true, rest) else if c = '+' then (false, rest) else (false, cs)
    | [] => (false, cs)
  let prefixed : Bool × List Char :=
    match signed.2 with
    | c0 :: c1 :: rest =>
      if c0 = '0' && (c1 = 'o' || c1 = 'O') then (true, rest) else (false, signed.2)
    | _ => (false, signed.2)
  match octCore prefixed.2 (!prefixed.1) false 0 with
  | none => none
  | some n => some (if signed.1 then -(n : Int) else (n : Int))

/-- `chmod(2)` stores only the low 12 permission bits of the requested
mode (`st_mode`'s permission field). -/
def chmodMode (m : Int) : Nat := (m % 4096).toNat

/-- A filesystem entry: a regular file or a directory with an ordered
listing of children.  `mode` is the entry's permission bits; `chmodFails`
models `os.chmod` raising `OSError` on this entry (e.g. `EPERM`). -/
inductive Entry : Type where
  | file (name : String) (mode : Nat) (chmodFails : Bool)
  | dir (name : String) (mode : Nat) (chmodFails : Bool) (children : List Entry)

def Entry.name : Entry → String
  | .file n _ _ => n
  | .dir n _ _ _ => n

def Entry.mode : Entry → Nat
  | .file _ m _ => m
  | .dir _ m _ _ => m

def Entry.chmodFails : Entry → Bool
  | .file _ _ f => f
  | .dir _ _ f _ => f

def Entry.isDir : Entry → Bool
  | .file _ _ _ => false
  | .dir _ _ _ _ => true

/-- First child with the given name (directory lookup). -/
def findChild (c : String) : List Entry → Option Entry
  | [] => none
  | ch :: rest => if ch.name = c then some ch else findChild c rest

/-- Entry at a relative component path below `t` (follows the walk the
OS performs to resolve a path). -/
def Entry.find? : List String → Entry → Option Entry
  | [], e => some e
  | c :: rest, e =>
    match e with
    | .file _ _ _ => none
    | .dir _ _ _ cs =>
      match findChild c cs with
      | none => none
      | some ch => Entry.find? rest ch

/-- `os.chmod`'s effect on the tree: set the mode bits of the entry at the
given relative path to `v`, leaving everything else unchanged. -/
def Entry.setMode : List String → Nat → Entry → Entry
  | [], v, .file n _ f => .file n v f
  | [], v, .dir n _ f cs => .dir n v f cs
  | _ :: _, _, .file n m f => .file n m f
  | c :: rest, v, .dir n m f cs =>
      .dir n m f (cs.map fun ch => if ch.name = c then Entry.setMode rest v ch else ch)

mutual
/-- Absolute paths on which `apply_permission_change` is invoked by the
`os.walk` loop of `process_path` (lines 129–136): for each walk root, first
every non-directory entry of its listing (`files` of `os.walk`), then every
directory entry of its listing (`os.listdir` filtered by `is_dir`), then the
walk descends into each subdirectory in listing order.  `sp` is the absolute
path of the entry itself. -/
def walkCalls : List String → Entry → List (List String)
  | _, .file _ _ _ => []
  | sp, .dir _ _ _ cs =>
    (cs.filter fun c => !c.isDir).map (fun c => sp ++ [c.name])
      ++ (cs.filter fun c => c.isDir).map (fun c => sp ++ [c.name])
      ++ walkCallsList sp cs

/-- Descent of `os.walk` into the subdirectories of a listing. -/
def walkCallsList : List String → List Entry → List (List String)
  | _, [] => []
  | sp, c :: rest =>
    (if c.isDir then walkCalls (sp ++ [c.name]) c else []) ++ walkCallsList sp rest
end

/-- Observable per-entry outcome of one `apply_permission_change` call,
distinguished by the log line the call emits. -/
inductive Outcome : Type where
  | applied (mode : Nat)
  | skippedExcluded
  | skippedUnsupported
  | invalidDirective
  | failedOSError
deriving Repr, DecidableEq

/-- Truthiness of the `Optional[str]` permission argument in Python:
`None` and `""` are falsy. -/
def pyTruthy : Option String → Bool
  | none => false
  | some s => !(s == "")

/-- `exclude_spec and exclude_spec.match_file(str(target_path))`
(line 86): a missing spec excludes nothing. -/
def matcherHits : Option (List String → Bool) → List String → Bool
  | none, _ => false
  | some m, p => m p

/-- `apply_permission_change` (lines 76–107 of `src/main.py`), as the
outcome of one call.  `chmodFails` says whether `os.chmod` on the target
raises `OSError` (also used when the target vanished).  The branches mirror
the source: excluded paths return before any syscall; a truthy permission
string is parsed with `int(permissions, 8)` (`ValueError` is logged and the
ignored value 1 returned); otherwise all permissions are removed on POSIX
and the entry is skipped with a warning elsewhere; `OSError` from `chmod`
is caught and logged. -/
def apply_permission_change (exclude : Option (List String → Bool)) (posix : Bool)
    (permissions : Option String) (target : List String) (chmodFails : Bool) : Outcome :=
  if matcherHits exclude target then .skippedExcluded
  else if pyTruthy permissions then
    match parsePyIntBase8 (permissions.getD "") with
    | none => .invalidDirective
    | some m => if chmodFails then .failedOSError else .applied (chmodMode m)
  else
    if posix then (if chmodFails then .failedOSError else .applied 0)
    else .skippedUnsupported

/-- One `apply_permission_change` call lifted to the filesystem state:
computes the outcome from the entry at the target (a missing entry means
`chmod` raises `OSError`) and performs the mode mutation exactly when the
call applies a mode. -/
def step (exclude : Option (List String → Bool)) (posix : Bool)
    (permissions : Option String) (rootPath : List String)
    (t : Entry) (p : List String) : Entry × Outcome :=
  let rel := p.drop rootPath.length
  let cf := ((Entry.find? rel t).map Entry.chmodFails).getD true
  match apply_permission_change exclude posix permissions p cf with
  | .applied v => (Entry.setMode rel v t, .applied v)
  | o => (t, o)

/-- Run a sequence of `apply_permission_change` calls in order, threading
the filesystem state and collecting the per-call outcomes. -/
def runCalls (exclude : Option (List String → Bool)) (posix : Bool)
    (permissions : Option String) (rootPath : List String) :
    Entry → List (List String) → Entry × List (List String × Outcome)
  | t, [] => (t, [])
  | t, p :: ps =>
    let r := step exclude posix permissions rootPath t p
    let rest := runCalls exclude posix permissions rootPath r.1 ps
    (rest.1, (p, r.2) :: rest.2)

/-- The full sequence of `apply_permission_change` calls made by
`process_path` on an existing root: the root itself (lines 124/126,
whether file or directory), then — only for a directory with
`recursive=True` — the `os.walk` loop. -/
def processCalls (rootPath : List String) (t : Entry) (recursive : Bool) :
    List (List String) :=
  rootPath :: (if t.isDir && recursive then walkCalls rootPath t else [])

/-- `process_path` (lines 109–138): returns 1 if the target does not
exist, otherwise applies the permission change (recursively if requested)
and returns 0.  The return values of the `apply_permission_change` calls
are discarded by the source.  Result: final filesystem, per-call outcomes,
and the Python return value. -/
def process_path (exclude : Option (List String → Bool)) (posix : Bool)
    (permissions : Option String) (recursive : Bool)
    (rootPath : List String) (fs : Option Entry) :
    Option Entry × List (List String × Outcome) × Nat :=
  match fs with
  | none => (none, [], 1)
  | some t =>
    let r := runCalls exclude posix permissions rootPath t
      (processCalls rootPath t recursive)
    (some r.1, r.2, 0)

/-- Result of one run of `main`: final filesystem at the (resolved
absolute) root path, per-entry outcomes, exit code. -/
structure MainResult : Type where
  tree : Option Entry
  outcomes : List (List String × Outcome)
  exit : Nat

/-- The 3-or-4-character check of line 181. -/
def lenOk (s : String) : Bool := s.length == 3 || s.length == 4

/-- `main` (lines 141–191) after argument parsing and path resolution:
compile the exclusion spec (a compile failure returns 1 before anything
else), return 1 if the target is missing, return 1 if a truthy permission
string does not have exactly 3 or 4 characters, else run `process_path`.
`rootPath` is the resolved absolute target path as its list of components,
`fs` the entry currently at that path (`none` if the path does not exist),
`posix` whether `os.name == 'posix'`. -/
def main (posix : Bool) (excludeCompileFails : Bool)
    (exclude : Option (List String → Bool)) (rootPath : List String)
    (fs : Option Entry) (permissions : Option String) (recursive : Bool) :
    MainResult :=
  if excludeCompileFails then ⟨fs, [], 1⟩
  else if fs.isNone then ⟨fs, [], 1⟩
  else if pyTruthy permissions && !lenOk (permissions.getD "") then ⟨fs, [], 1⟩
  else
    let r := process_path exclude posix permissions recursive rootPath fs
    ⟨r.1, r.2.1, r.2.2⟩

/-- Models `pathspec.PathSpec.from_lines(GitWildMatchPattern, ["sub/**"])
.match_file` on an absolute path given as its component list:
`pathspec.util.normalize_file` strips the leading `/` (the components are
then matched as-is), and the pattern `sub/**` is anchored because it
contains an interior slash, compiling to the regex `^sub/.*$` — it matches
exactly the paths whose first component is `sub` and that have at least one
further component. -/
def matchFileSubGlob : List String → Bool
  | "sub" :: _ :: _ => true
  | _ => false

mutual
/-- Filesystem well-formedness: in every directory the children's names
are pairwise distinct (a real directory cannot hold two entries with the
same name). -/
def Entry.wf : Entry → Bool
  | .file _ _ _ => true
  | .dir _ _ _ cs => wfChildren cs

def wfChildren : List Entry → Bool
  | [] => true
  | c :: rest => Entry.wf c && nameFresh c.name rest && wfChildren rest

/-- `n` does not occur among the names of the given entries. -/
def nameFresh : String → List Entry → Bool
  | _, [] => true
  | n, c :: rest => !(c.name == n) && nameFresh n rest
end

/-! ## Parsing valid octal digit strings -/

/-- Accumulator form of the value of a string of octal digits. -/
def octAcc (acc : Nat) (cs : List Char) : Nat :=
  cs.foldl (fun a c => a * 8 + octDigitVal c) acc

/-- The numeric value denoted by a string of octal digits. -/
def octValue (s : String) : Nat := octAcc 0 s.data

theorem isOctDigit_bounds {c : Char} (h : isOctDigit c = true) :
    48 ≤ c.toNat ∧ c.toNat ≤ 55 := by
  have h1 : '0' ≤ c ∧ c ≤ '7' := by simpa [isOctDigit] using h
  exact ⟨Char.le_def.mp h1.1, Char.le_def.mp h1.2⟩

theorem octDigit_ne {c : Char} (h : isOctDigit c = true) (d : Char)
    (hd : d.toNat < 48 ∨ 55 < d.toNat) : c ≠ d := by
  obtain ⟨h1, h2⟩ := isOctDigit_bounds h
  rintro rfl
  omega

theorem octDigit_not_ws {c : Char} (h : isOctDigit c = true) :
    c.isWhitespace = false := by
  obtain ⟨h1, -⟩ := isOctDigit_bounds h
  cases hw : c.isWhitespace
  · rfl
  · exfalso
    have h3 : ((c = ' ' ∨ c = '\t') ∨ c = '\r') ∨ c = '\n' := by
      simpa [Char.isWhitespace] using hw
    rcases h3 with ((rfl | rfl) | rfl) | rfl <;> revert h1 <;> decide

theorem dropWhile_eq_self {p : Char → Bool} :
    ∀ cs : List Char, (∀ c ∈ cs, p c = false) → cs.dropWhile p = cs
  | [], _ => rfl
  | a :: l, h => by simp [List.dropWhile_cons, h a (List.mem_cons_self a l)]

theorem pyStrip_eq_self (cs : List Char) (h : ∀ c ∈ cs, c.isWhitespace = false) :
    pyStrip cs = cs := by
  unfold pyStrip
  rw [dropWhile_eq_self cs h,
    dropWhile_eq_self _ (fun c hc => h c (List.mem_reverse.mp hc)),
    List.reverse_reverse]

theorem octCore_cons_digit {c : Char} (h : isOctDigit c = true)
    {l : List Char} {au sd : Bool} {acc : Nat} :
    octCore (c :: l) au sd acc = octCore l false true (acc * 8 + octDigitVal c) := by
  simp [octCore, h]

theorem octCore_digits :
    ∀ cs : List Char, (∀ c ∈ cs, isOctDigit c = true) →
      ∀ acc, octCore cs false true acc = some (octAcc acc cs)
  | [], _, _ => rfl
  | c :: l, h, acc => by
    have hc := h c (List.mem_cons_self c l)
    rw [octCore_cons_digit hc]
    exact octCore_digits l (fun d hd => h d (List.mem_cons_of_mem c hd)) _

/-- On a nonempty all-octal-digit string, `int(s, 8)` returns the string's
octal value. -/
theorem parse_octDigits (s : String) (hne : s.data ≠ [])
    (hdig : ∀ c ∈ s.data, isOctDigit c = true) :
    parsePyIntBase8 s = some (Int.ofNat (octValue s)) := by
  unfold parsePyIntBase8 octValue
  rw [pyStrip_eq_self s.data (fun c hc => octDigit_not_ws (hdig c hc))]
  obtain ⟨c, l, hcl⟩ : ∃ c l, s.data = c :: l := by
    cases hsd : s.data with
    | nil => exact absurd hsd hne
    | cons a b => exact ⟨a, b, rfl⟩
  rw [hcl]
  have hc := hdig c (hcl ▸ List.mem_cons_self c l)
  have hneg : c ≠ '-' := octDigit_ne hc '-' (by decide)
  have hpos : c ≠ '+' := octDigit_ne hc '+' (by decide)
  simp only [if_neg hneg, if_neg hpos]
  cases l with
  | nil =>
    rw [octCore_cons_digit hc]
    simp [octCore, octAcc]
  | cons c1 rest =>
    have hc1 := hdig c1 (hcl ▸ List.mem_cons_of_mem c (List.mem_cons_self c1 rest))
    have hco : c1 ≠ 'o' := octDigit_ne hc1 'o' (by decide)
    have hcO : c1 ≠ 'O' := octDigit_ne hc1 'O' (by decide)
    have hpre : (c = '0' && (c1 = 'o' || c1 = 'O')) = false := by
      simp [hco, hcO]
    simp only [hpre, Bool.false_eq_true, if_false, Bool.not_false]
    rw [octCore_cons_digit hc,
      octCore_digits (c1 :: rest)
        (fun d hd => hdig d (hcl ▸ List.mem_cons_of_mem c hd)) _]
    simp [octAcc]

theorem octAcc_lt :
    ∀ cs : List Char, ∀ acc, (∀ c ∈ cs, isOctDigit c = true) →
      octAcc acc cs < (acc + 1) * 8 ^ cs.length
  | [], acc, _ => by simp [octAcc]
  | c :: l, acc, h => by
    have hc := h c (List.mem_cons_self c l)
    have hv : octDigitVal c ≤ 7 := by
      obtain ⟨a, b⟩ := isOctDigit_bounds hc
      have h0 : ('0' : Char).toNat = 48 := rfl
      unfold octDigitVal
      omega
    have hrec := octAcc_lt l (acc * 8 + octDigitVal c)
      (fun d hd => h d (List.mem_cons_of_mem c hd))
    have hco : acc * 8 + octDigitVal c + 1 ≤ (acc + 1) * 8 := by omega
    calc octAcc acc (c :: l) = octAcc (acc * 8 + octDigitVal c) l := rfl
      _ < (acc * 8 + octDigitVal c + 1) * 8 ^ l.length := hrec
      _ ≤ ((acc + 1) * 8) * 8 ^ l.length := Nat.mul_le_mul_right _ hco
      _ = (acc + 1) * 8 ^ (c :: l).length := by
          simp [List.length_cons, pow_succ]
          ring

theorem octValue_lt_4096 {s : String} (hdig : ∀ c ∈ s.data, isOctDigit c = true)
    (hlen : s.length = 3 ∨ s.length = 4) : octValue s < 4096 := by
  have h := octAcc_lt s.data 0 hdig
  have hl : s.data.length = s.length := rfl
  rcases hlen with h3 | h4
  · rw [hl, h3] at h
    simpa [octValue] using Nat.lt_of_lt_of_le h (by norm_num)
  · rw [hl, h4] at h
    simpa [octValue] using Nat.lt_of_lt_of_le h (by norm_num)

theorem chmodMode_ofNat {v : Nat} (h : v < 4096) : chmodMode (Int.ofNat v) = v := by
  unfold chmodMode
  have hcoe : Int.ofNat v = (v : Int) := rfl
  rw [hcoe, Int.emod_eq_of_lt (by omega) (by omega)]
  omega

/-! ## Structural facts about `setMode`, `find?` and the traversal -/

theorem Entry.name_setMode (rel : List String) (v : Nat) (t : Entry) :
    (Entry.setMode rel v t).name = t.name := by
  cases rel <;> cases t <;> rfl

theorem Entry.chmodFails_setMode (rel : List String) (v : Nat) (t : Entry) :
    (Entry.setMode rel v t).chmodFails = t.chmodFails := by
  cases rel <;> cases t <;> rfl

theorem Entry.isDir_setMode (rel : List String) (v : Nat) (t : Entry) :
    (Entry.setMode rel v t).isDir = t.isDir := by
  cases rel <;> cases t <;> rfl

theorem findChild_name (c : String) :
    ∀ cs ch, findChild c cs = some ch → ch.name = c
  | [], _, h => by simp [findChild] at h
  | e :: rest, ch, h => by
    by_cases he : e.name = c
    · rw [findChild, if_pos he] at h
      cases h
      exact he
    · rw [findChild, if_neg he] at h
      exact findChild_name c rest ch h

theorem findChild_map (c : String) (g : Entry → Entry)
    (hg : ∀ e, (g e).name = e.name) :
    ∀ cs : List Entry, findChild c (cs.map g) = (findChild c cs).map g
  | [] => rfl
  | ch :: rest => by
    by_cases h : ch.name = c
    · simp [findChild, hg ch, h]
    · simp [findChild, hg ch, h, findChild_map c g hg rest]

/-- How `setMode` affects lookups: the entry at `rel'` is modified exactly
when `rel'` is on the path to the written entry (it receives the remaining
write), and untouched otherwise. -/
theorem find?_setMode (rel' : List String) :
    ∀ (rel : List String) (v : Nat) (t : Entry),
      Entry.find? rel' (Entry.setMode rel v t) =
        if rel' <+: rel then
          (Entry.find? rel' t).map (Entry.setMode (rel.drop rel'.length) v)
        else Entry.find? rel' t := by
  induction rel' with
  | nil =>
    intro rel v t
    simp [Entry.find?, List.nil_prefix]
  | cons c' rest' ih =>
    intro rel v t
    cases t with
    | file n m f =>
      cases rel with
      | nil => simp [Entry.setMode, Entry.find?]
      | cons c rest => simp [Entry.setMode, Entry.find?]
    | dir n m f cs =>
      cases rel with
      | nil =>
        have hnp : ¬ (c' :: rest') <+: ([] : List String) := by simp
        simp [Entry.setMode, Entry.find?, hnp]
      | cons c rest =>
        simp only [Entry.setMode, Entry.find?]
        rw [findChild_map c'
          (fun ch => if ch.name = c then Entry.setMode rest v ch else ch)
          (fun e => by
            by_cases h : e.name = c <;> simp [h, Entry.name_setMode]) cs]
        cases hf : findChild c' cs with
        | none => simp
        | some ch =>
          have hname : ch.name = c' := findChild_name c' cs ch hf
          by_cases hcc : c' = c
          · subst hcc
            simp [hname, ih, List.cons_prefix_cons, List.drop_succ_cons]
          · simp [hname, hcc, List.cons_prefix_cons]

/-! ## The traversal depends only on the tree's shape -/

theorem levelCalls_map (sp : List String) (g : Entry → Entry)
    (hgn : ∀ e, (g e).name = e.name) (p : Entry → Bool)
    (hp : ∀ e, p (g e) = p e) :
    ∀ cs : List Entry,
      ((cs.map g).filter p).map (fun x => sp ++ [x.name])
        = (cs.filter p).map (fun x => sp ++ [x.name])
  | [] => rfl
  | e :: l => by
    by_cases h : p e = true
    · simp [List.filter_cons, hp, h, hgn, levelCalls_map sp g hgn p hp l]
    · simp [List.filter_cons, hp, h, levelCalls_map sp g hgn p hp l]

theorem walkCalls_setMode (rel : List String) :
    ∀ (v : Nat) (t : Entry) (sp : List String),
      walkCalls sp (Entry.setMode rel v t) = walkCalls sp t := by
  induction rel with
  | nil => intro v t sp; cases t <;> rfl
  | cons c rest ih =>
    intro v t sp
    cases t with
    | file n m f => rfl
    | dir n m f cs =>
      have hgn : ∀ e : Entry,
          ((fun ch => if ch.name = c then Entry.setMode rest v ch else ch) e).name
            = e.name := by
        intro e; by_cases h : e.name = c <;> simp [h, Entry.name_setMode]
      have hgd : ∀ e : Entry,
          ((fun ch => if ch.name = c then Entry.setMode rest v ch else ch) e).isDir
            = e.isDir := by
        intro e; by_cases h : e.name = c <;> simp [h, Entry.isDir_setMode]
      have hlist : ∀ cs' : List Entry,
          walkCallsList sp
            (cs'.map fun ch => if ch.name = c then Entry.setMode rest v ch else ch)
            = walkCallsList sp cs' := by
        intro cs'
        induction cs' with
        | nil => rfl
        | cons e l ihl =>
          simp only [List.map_cons, walkCallsList, hgd e, hgn e, ihl]
          by_cases h : e.name = c
          · simp [h, ih]
          · simp [h]
      show walkCalls sp (Entry.dir n m f
        (cs.map fun ch => if ch.name = c then Entry.setMode rest v ch else ch)) = _
      simp only [walkCalls]
      rw [levelCalls_map sp _ hgn _ (fun e => by rw [hgd e]) cs,
        levelCalls_map sp _ hgn _ (fun e => hgd e) cs, hlist cs]

/-! ## Algebra of mode writes -/

theorem setMode_absorb (rel : List String) :
    ∀ (v w : Nat) (t : Entry),
      Entry.setMode rel v (Entry.setMode rel w t) = Entry.setMode rel v t := by
  induction rel with
  | nil => intro v w t; cases t <;> rfl
  | cons c rest ih =>
    intro v w t
    cases t with
    | file n m f => rfl
    | dir n m f cs =>
      simp only [Entry.setMode, List.map_map]
      congr 1
      apply List.map_congr_left
      intro ch _
      by_cases h : ch.name = c
      · simp [Function.comp, h, Entry.name_setMode, ih]
      · simp [Function.comp, h]

theorem setMode_comm (rel : List String) :
    ∀ (rel' : List String), rel ≠ rel' → ∀ (v w : Nat) (t : Entry),
      Entry.setMode rel v (Entry.setMode rel' w t)
        = Entry.setMode rel' w (Entry.setMode rel v t) := by
  induction rel with
  | nil =>
    intro rel' hne v w t
    cases rel' with
    | nil => exact absurd rfl hne
    | cons c' rest' => cases t <;> rfl
  | cons c rest ih =>
    intro rel' hne v w t
    cases rel' with
    | nil => cases t <;> rfl
    | cons c' rest' =>
      cases t with
      | file n m f => rfl
      | dir n m f cs =>
        simp only [Entry.setMode, List.map_map]
        congr 1
        apply List.map_congr_left
        intro ch _
        by_cases hc : ch.name = c
        · by_cases hc' : ch.name = c'
          · have hcc : c = c' := hc.symm.trans hc'
            subst hcc
            have hrr : rest ≠ rest' := fun hr => hne (by rw [hr])
            simp only [Function.comp, Entry.name_setMode, hc, if_true,
              eq_self_iff_true]
            exact ih rest' hrr v w ch
          · have hcc' : ¬ (c = c') := fun h => hc' (hc.trans h)
            simp only [Function.comp, Entry.name_setMode, hc, if_true,
              eq_self_iff_true]
            simp [hcc']
            exact fun hn => absurd hc hn
        · by_cases hc' : ch.name = c'
          · have hcc' : ¬ (c' = c) := fun h => hc (hc'.trans h)
            simp only [Function.comp, Entry.name_setMode, hc', if_true,
              eq_self_iff_true]
            simp [hcc']
            rw [if_pos hc']
          · simp [Function.comp, hc, hc']

/-- Apply a list of `(relative path, mode)` writes in order. -/
def foldWrites (t : Entry) (ws : List (List String × Nat)) : Entry :=
  ws.foldl (fun acc w => Entry.setMode w.1 w.2 acc) t

theorem foldWrites_cons (t : Entry) (w : List String × Nat)
    (ws : List (List String × Nat)) :
    foldWrites t (w :: ws) = foldWrites (Entry.setMode w.1 w.2 t) ws := rfl

theorem setMode_foldWrites (r : List String) (v : Nat) :
    ∀ (ws : List (List String × Nat)) (t : Entry),
      Entry.setMode r v (foldWrites t ws)
        = foldWrites (Entry.setMode r v t) (ws.filter fun w => w.1 ≠ r)
  | [], t => rfl
  | w :: ws, t => by
    rw [foldWrites_cons, setMode_foldWrites r v ws (Entry.setMode w.1 w.2 t),
      List.filter_cons]
    by_cases h : w.1 = r
    · rw [h, setMode_absorb]
      simp [h]
    · rw [setMode_comm r w.1 (fun he => h he.symm) v w.2 t]
      simp [h, foldWrites_cons]

theorem foldWrites_absorb :
    ∀ (s sub : List (List String × Nat)), sub.Sublist s →
      ∀ t, foldWrites (foldWrites t sub) s = foldWrites t s := by
  intro s
  induction s with
  | nil =>
    intro sub hsub t
    rw [List.sublist_nil.mp hsub]
    rfl
  | cons a s' ih =>
    intro sub hsub t
    cases sub with
    | nil => rfl
    | cons b sub' =>
      cases hsub with
      | cons _ h =>
        rw [foldWrites_cons _ a s', setMode_foldWrites]
        exact ih _ (((b :: sub').filter_sublist).trans h) _
      | cons₂ _ h =>
        rw [foldWrites_cons _ a sub', foldWrites_cons _ a s', setMode_foldWrites,
          setMode_absorb]
        exact ih _ ((sub'.filter_sublist).trans h) _

/-! ## A run is a list of mode writes plus state-independent outcomes -/

/-- Outcome of the `apply_permission_change` call at `p`, read off the
current filesystem state. -/
def callOutcome (exclude : Option (List String → Bool)) (posix : Bool)
    (permissions : Option String) (rootPath : List String)
    (t : Entry) (p : List String) : Outcome :=
  apply_permission_change exclude posix permissions p
    (((Entry.find? (p.drop rootPath.length) t).map Entry.chmodFails).getD true)

/-- The mode write performed by the call at `p`, if any. -/
def writeOf (exclude : Option (List String → Bool)) (posix : Bool)
    (permissions : Option String) (rootPath : List String)
    (t : Entry) (p : List String) : Option (List String × Nat) :=
  match callOutcome exclude posix permissions rootPath t p with
  | .applied v => some (p.drop rootPath.length, v)
  | _ => none

theorem step_eq (ex : Option (List String → Bool)) (posix : Bool)
    (perms : Option String) (rootPath : List String) (t : Entry)
    (p : List String) :
    step ex posix perms rootPath t p
      = (foldWrites t (writeOf ex posix perms rootPath t p).toList,
         callOutcome ex posix perms rootPath t p) := by
  unfold step writeOf callOutcome
  cases h : apply_permission_change ex posix perms p
      (((Entry.find? (p.drop rootPath.length) t).map Entry.chmodFails).getD true) <;>
    simp [h, foldWrites]

theorem callOutcome_setMode (ex : Option (List String → Bool)) (posix : Bool)
    (perms : Option String) (rootPath : List String) (r : List String) (v : Nat)
    (t : Entry) (p : List String) :
    callOutcome ex posix perms rootPath (Entry.setMode r v t) p
      = callOutcome ex posix perms rootPath t p := by
  unfold callOutcome
  rw [find?_setMode]
  by_cases h : (p.drop rootPath.length) <+: r
  · rw [if_pos h]
    cases ho : Entry.find? (p.drop rootPath.length) t <;>
      simp [Entry.chmodFails_setMode]
  · rw [if_neg h]

theorem writeOf_setMode (ex : Option (List String → Bool)) (posix : Bool)
    (perms : Option String) (rootPath : List String) (r : List String) (v : Nat)
    (t : Entry) (p : List String) :
    writeOf ex posix perms rootPath (Entry.setMode r v t) p
      = writeOf ex posix perms rootPath t p := by
  unfold writeOf
  rw [callOutcome_setMode]

theorem callOutcome_foldWrites (ex : Option (List String → Bool)) (posix : Bool)
    (perms : Option String) (rootPath : List String) (p : List String) :
    ∀ (ws : List (List String × Nat)) (t : Entry),
      callOutcome ex posix perms rootPath (foldWrites t ws) p
        = callOutcome ex posix perms rootPath t p
  | [], _ => rfl
  | w :: ws, t => by
    rw [foldWrites_cons, callOutcome_foldWrites ex posix perms rootPath p ws,
      callOutcome_setMode]

theorem writeOf_foldWrites (ex : Option (List String → Bool)) (posix : Bool)
    (perms : Option String) (rootPath : List String) (p : List String) :
    ∀ (ws : List (List String × Nat)) (t : Entry),
      writeOf ex posix perms rootPath (foldWrites t ws) p
        = writeOf ex posix perms rootPath t p := by
  intro ws t
  unfold writeOf
  rw [callOutcome_foldWrites]

theorem walkCalls_foldWrites :
    ∀ (ws : List (List String × Nat)) (t : Entry) (sp : List String),
      walkCalls sp (foldWrites t ws) = walkCalls sp t
  | [], _, _ => rfl
  | w :: ws, t, sp => by
    rw [foldWrites_cons, walkCalls_foldWrites ws, walkCalls_setMode]

theorem isDir_foldWrites :
    ∀ (ws : List (List String × Nat)) (t : Entry),
      (foldWrites t ws).isDir = t.isDir
  | [], _ => rfl
  | w :: ws, t => by
    rw [foldWrites_cons, isDir_foldWrites ws, Entry.isDir_setMode]

theorem processCalls_foldWrites (rootPath : List String)
    (ws : List (List String × Nat)) (t : Entry) (recursive : Bool) :
    processCalls rootPath (foldWrites t ws) recursive
      = processCalls rootPath t recursive := by
  unfold processCalls
  rw [isDir_foldWrites, walkCalls_foldWrites]

/-- The writes performed by a run over a fixed call list. -/
def runWrites (exclude : Option (List String → Bool)) (posix : Bool)
    (permissions : Option String) (rootPath : List String)
    (t : Entry) (calls : List (List String)) : List (List String × Nat) :=
  calls.filterMap (writeOf exclude posix permissions rootPath t)

theorem runWrites_foldWrites (ex : Option (List String → Bool)) (posix : Bool)
    (perms : Option String) (rootPath : List String)
    (ws : List (List String × Nat)) (t : Entry) :
    ∀ calls, runWrites ex posix perms rootPath (foldWrites t ws) calls
      = runWrites ex posix perms rootPath t calls
  | [] => rfl
  | p :: ps => by
    unfold runWrites
    rw [List.filterMap_cons, List.filterMap_cons, writeOf_foldWrites]
    have ih := runWrites_foldWrites ex posix perms rootPath ws t ps
    unfold runWrites at ih
    rw [ih]

/-- Every run is: apply the writes it performs, and report outcomes that
are independent of the writes already performed (mode changes never alter
names, kinds, or whether `chmod` fails). -/
theorem runCalls_eq (ex : Option (List String → Bool)) (posix : Bool)
    (perms : Option String) (rootPath : List String) :
    ∀ (calls : List (List String)) (t : Entry),
      runCalls ex posix perms rootPath t calls
        = (foldWrites t (runWrites ex posix perms rootPath t calls),
           calls.map fun p => (p, callOutcome ex posix perms rootPath t p)) := by
  intro calls
  induction calls with
  | nil => intro t; rfl
  | cons p ps ih =>
    intro t
    simp only [runCalls, step_eq]
    rw [ih]
    have hw : runWrites ex posix perms rootPath
        (foldWrites t (writeOf ex posix perms rootPath t p).toList) ps
        = runWrites ex posix perms rootPath t ps :=
      runWrites_foldWrites ex posix perms rootPath _ t ps
    have hmap : (ps.map fun q => (q, callOutcome ex posix perms rootPath
        (foldWrites t (writeOf ex posix perms rootPath t p).toList) q))
        = ps.map fun q => (q, callOutcome ex posix perms rootPath t q) := by
      apply List.map_congr_left
      intro q _
      rw [callOutcome_foldWrites]
    rw [hw, hmap]
    unfold runWrites
    rw [List.filterMap_cons]
    cases hwp : writeOf ex posix perms rootPath t p with
    | none => simp [hwp, foldWrites]
    | some w => simp [hwp, foldWrites_cons, foldWrites]

/-! ## Helper facts about permission strings -/

theorem ne_empty_of_len34 {p : String} (hlen : p.length = 3 ∨ p.length = 4) :
    p ≠ "" := by
  rintro rfl
  rcases hlen with h | h <;> exact absurd h (by decide)

theorem data_ne_nil_of_len34 {p : String} (hlen : p.length = 3 ∨ p.length = 4) :
    p.data ≠ [] := by
  intro h
  have h0 : p.length = 0 := by
    rw [show p.length = p.data.length from rfl, h]
    rfl
  rcases hlen with hl | hl <;> omega

theorem pyTruthy_some {p : String} (h : p ≠ "") : pyTruthy (some p) = true := by
  simp [pyTruthy, h]

theorem lenOk_of {p : String} (hlen : p.length = 3 ∨ p.length = 4) :
    lenOk p = true := by
  rcases hlen with h | h <;> simp [lenOk, h]

/-- A successful explicit-mode `chmod`: on a non-excluded, existing,
`chmod`-able target, a valid 3–4-octal-digit directive writes exactly the
string's octal value. -/
theorem step_explicit_ok (ex : Option (List String → Bool)) (posix : Bool)
    (p : String) (rootPath q : List String) (t e : Entry)
    (hdig : ∀ c ∈ p.data, isOctDigit c = true)
    (hlen : p.length = 3 ∨ p.length = 4)
    (hfind : Entry.find? (q.drop rootPath.length) t = some e)
    (hck : e.chmodFails = false)
    (hexcl : matcherHits ex q = false) :
    step ex posix (some p) rootPath t q
      = (Entry.setMode (q.drop rootPath.length) (octValue p) t,
         .applied (octValue p)) := by
  have hparse := parse_octDigits p (data_ne_nil_of_len34 hlen) hdig
  have hval := chmodMode_ofNat (octValue_lt_4096 hdig hlen)
  have htr := pyTruthy_some (ne_empty_of_len34 hlen)
  have hval2 : chmodMode ((octValue p : Int)) = octValue p := hval
  simp [step, apply_permission_change, hfind, hck, hexcl, htr, hparse, hval2]

/-! ## Claims C4, C5, C6 (per-entry mutation behavior) -/

/-- C4: for every valid 3–4-digit octal string `p` and every non-excluded
existing file (whose `chmod` succeeds), applying the explicit directive `p`
sets the file's permission bits to exactly the numeric value of `p`,
replacing the previous bits entirely rather than merging with them. -/
theorem C4_explicit_mode_replaces (ex : Option (List String → Bool))
    (posix : Bool) (p : String) (rootPath q : List String) (t : Entry)
    (n : String) (md : Nat)
    (hdig : ∀ c ∈ p.data, isOctDigit c = true)
    (hlen : p.length = 3 ∨ p.length = 4)
    (hfind : Entry.find? (q.drop rootPath.length) t = some (.file n md false))
    (hexcl : matcherHits ex q = false) :
    step ex posix (some p) rootPath t q
      = (Entry.setMode (q.drop rootPath.length) (octValue p) t,
         .applied (octValue p))
    ∧ Entry.find? (q.drop rootPath.length)
        (Entry.setMode (q.drop rootPath.length) (octValue p) t)
      = some (.file n (octValue p) false) := by
  constructor
  · exact step_explicit_ok ex posix p rootPath q t _ hdig hlen hfind rfl hexcl
  · rw [find?_setMode, if_pos (List.prefix_refl _), hfind, List.drop_length]
    rfl

/-- C4 witness: a concrete non-excluded file with prior mode `0o644`
gets exactly mode `0o640` from directive `"640"`. -/
theorem C4_explicit_mode_replaces_witness :
    (∀ c ∈ ("640" : String).data, isOctDigit c = true)
    ∧ (("640" : String).length = 3 ∨ ("640" : String).length = 4)
    ∧ Entry.find? (["f"].drop ([] : List String).length)
        (.dir "d" 448 false [.file "f" 420 false]) = some (.file "f" 420 false)
    ∧ matcherHits none ["f"] = false
    ∧ step none true (some "640") [] (.dir "d" 448 false [.file "f" 420 false]) ["f"]
        = (Entry.setMode ["f"] 416 (.dir "d" 448 false [.file "f" 420 false]),
           .applied 416)
    ∧ Entry.find? ["f"] (Entry.setMode ["f"] 416 (.dir "d" 448 false [.file "f" 420 false]))
        = some (.file "f" 416 false) :=
  ⟨by decide, by decide, rfl, rfl,
    (C4_explicit_mode_replaces none true "640" [] ["f"]
      (.dir "d" 448 false [.file "f" 420 false]) "f" 420
      (by decide) (by decide) rfl rfl).1,
    (C4_explicit_mode_replaces none true "640" [] ["f"]
      (.dir "d" 448 false [.file "f" 420 false]) "f" 420
      (by decide) (by decide) rfl rfl).2⟩

/-- C5: on a non-excluded entry whose `chmod` succeeds, the `RemoveAll`
directive (absent permission string) sets the permission bits to 0 on
POSIX, and on a non-POSIX platform the entry is skipped with a warning
(outcome `skippedUnsupported`, not a failure) and left unchanged. -/
theorem C5_removeall (ex : Option (List String → Bool))
    (rootPath q : List String) (t e : Entry)
    (hfind : Entry.find? (q.drop rootPath.length) t = some e)
    (hck : e.chmodFails = false)
    (hexcl : matcherHits ex q = false) :
    step ex true none rootPath t q
      = (Entry.setMode (q.drop rootPath.length) 0 t, .applied 0)
    ∧ step ex false none rootPath t q = (t, .skippedUnsupported) := by
  constructor <;>
    simp [step, apply_permission_change, hfind, hck, hexcl, pyTruthy]

/-- C5 witness: a concrete file, POSIX and non-POSIX. -/
theorem C5_removeall_witness :
    Entry.find? (["f"].drop ([] : List String).length)
        (.dir "d" 448 false [.file "f" 420 false]) = some (.file "f" 420 false)
    ∧ matcherHits none ["f"] = false
    ∧ step none true none [] (.dir "d" 448 false [.file "f" 420 false]) ["f"]
        = (Entry.setMode ["f"] 0 (.dir "d" 448 false [.file "f" 420 false]),
           .applied 0)
    ∧ step none false none [] (.dir "d" 448 false [.file "f" 420 false]) ["f"]
        = (.dir "d" 448 false [.file "f" 420 false], .skippedUnsupported) :=
  ⟨rfl, rfl,
    (C5_removeall none [] ["f"] (.dir "d" 448 false [.file "f" 420 false])
      (.file "f" 420 false) rfl rfl rfl).1,
    (C5_removeall none [] ["f"] (.dir "d" 448 false [.file "f" 420 false])
      (.file "f" 420 false) rfl rfl rfl).2⟩

/-- C6: a visited entry whose path is matched by the exclusion matcher is
never mutated — the filesystem is returned unchanged — and its outcome is
`Skipped(Excluded)`.  This is the first branch of
`apply_permission_change` (lines 86–88), taken before any syscall. -/
theorem C6_excluded_never_mutated (m : List String → Bool) (posix : Bool)
    (perms : Option String) (rootPath : List String) (t : Entry)
    (q : List String) (hm : m q = true) :
    step (some m) posix perms rootPath t q = (t, .skippedExcluded) := by
  simp [step, apply_permission_change, matcherHits, hm]

/-- C6 witness: a matcher that matches exactly `["x"]`. -/
theorem C6_excluded_never_mutated_witness :
    ((fun p => decide (p = ["x"])) : List String → Bool) ["x"] = true
    ∧ step (some fun p => decide (p = ["x"])) true (some "755") []
        (.file "x" 420 false) ["x"]
      = (.file "x" 420 false, .skippedExcluded) :=
  ⟨by decide,
    C6_excluded_never_mutated (fun p => decide (p = ["x"])) true (some "755") []
      (.file "x" 420 false) ["x"] (by decide)⟩

/-! ## Claim C10 (empty permission string behaves as RemoveAll) -/

theorem runCalls_empty_perms (ex : Option (List String → Bool)) (posix : Bool)
    (rootPath : List String) :
    ∀ (calls : List (List String)) (t : Entry),
      runCalls ex posix (some "") rootPath t calls
        = runCalls ex posix none rootPath t calls
  | [], _ => rfl
  | p :: ps, t => by
    simp only [runCalls]
    have hstep : step ex posix (some "") rootPath t p
        = step ex posix none rootPath t p := rfl
    rw [hstep, runCalls_empty_perms ex posix rootPath ps]

/-- C10: the empty permission string bypasses `main`'s 3-or-4-digit guard
(the guard only fires for a truthy string) and the whole run is
indistinguishable from the `RemoveAll` run with the permission argument
absent: same final filesystem, same outcomes, same exit code. -/
theorem C10_empty_string_is_removeall (posix ef : Bool)
    (ex : Option (List String → Bool)) (rootPath : List String)
    (fs : Option Entry) (recursive : Bool) :
    main posix ef ex rootPath fs (some "") recursive
      = main posix ef ex rootPath fs none recursive := by
  unfold main process_path
  cases fs with
  | none => rfl
  | some t => simp [pyTruthy, runCalls_empty_perms]

/-! ## Claim C1 (exit-code aggregation) -/

/-- C1 counterexample: an existing root file whose `chmod` raises
`OSError` yields outcome `Failed` yet exit code 0 — `process_path`
discards the result of every `apply_permission_change` call and returns 0
whenever the root exists, so the run is *not* non-zero when a mutation
attempt fails, contradicting the claim. -/
theorem C1_counterexample :
    (main true false none ["f"] (some (.file "f" 420 true))
        (some "755") false).exit = 0
    ∧ (main true false none ["f"] (some (.file "f" 420 true))
        (some "755") false).outcomes = [(["f"], .failedOSError)] :=
  ⟨rfl, rfl⟩

/-- C1 amended: the exit code never reflects per-entry outcomes.  It is 0
iff the exclusion pattern compiled, the root exists, and the permission
string is absent, empty, or has exactly 3 or 4 characters; per-entry
`chmod` failures and directives that fail octal parsing during traversal
are only logged. -/
theorem C1_amended_exit_code (posix ef : Bool)
    (ex : Option (List String → Bool)) (rootPath : List String)
    (fs : Option Entry) (perms : Option String) (recursive : Bool) :
    (main posix ef ex rootPath fs perms recursive).exit = 0
      ↔ ef = false ∧ fs.isSome = true
        ∧ (pyTruthy perms && !lenOk (perms.getD "")) = false := by
  unfold main
  cases ef
  · cases fs with
    | none => simp
    | some t =>
      by_cases hg : (pyTruthy perms && !lenOk (perms.getD "")) = true
      · simp [hg]
      · simp [hg, process_path]
  · simp

/-! ## Claim C2 (malformed permission strings) -/

theorem writeOf_invalid (ex : Option (List String → Bool)) (posix : Bool)
    (rootPath : List String) (t : Entry) (q : List String) (p : String)
    (hne : p ≠ "") (hbad : parsePyIntBase8 p = none) :
    writeOf ex posix (some p) rootPath t q = none := by
  unfold writeOf callOutcome apply_permission_change
  by_cases hm : matcherHits ex q = true
  · simp [hm]
  · simp [hm, pyTruthy_some hne, hbad]

theorem runWrites_all_none (ex : Option (List String → Bool)) (posix : Bool)
    (perms : Option String) (rootPath : List String) (t : Entry)
    (h : ∀ q, writeOf ex posix perms rootPath t q = none) :
    ∀ calls, runWrites ex posix perms rootPath t calls = []
  | [] => rfl
  | q :: qs => by
    unfold runWrites
    rw [List.filterMap_cons, h q]
    exact runWrites_all_none ex posix perms rootPath t h qs

/-- C2 counterexample: `"abc"` is not parseable as base 8, yet it has 3
characters, so `main`'s guard passes; every per-entry `int(permissions, 8)`
raises `ValueError` before any `chmod`, nothing is mutated — but the run
exits 0, not 1 as the claim requires. -/
theorem C2_counterexample :
    parsePyIntBase8 "abc" = none
    ∧ (main true false none ["f"] (some (.file "f" 420 false))
        (some "abc") false).exit = 0
    ∧ (main true false none ["f"] (some (.file "f" 420 false))
        (some "abc") false).tree = some (.file "f" 420 false) :=
  ⟨rfl, rfl, rfl⟩

/-- C2 amended: a non-empty permission string that `int(s, 8)` rejects
causes zero filesystem mutations (the parse error precedes every `chmod`);
the exit code is 1 only when the string's length is not 3 or 4 (caught by
`main`'s guard before traversal) and 0 otherwise, because
`apply_permission_change`'s error return value is discarded. -/
theorem C2_amended_invalid_directive (posix : Bool)
    (ex : Option (List String → Bool)) (rootPath : List String) (t : Entry)
    (p : String) (recursive : Bool)
    (hne : p ≠ "") (hbad : parsePyIntBase8 p = none) :
    (main posix false ex rootPath (some t) (some p) recursive).tree = some t
    ∧ (main posix false ex rootPath (some t) (some p) recursive).exit
        = (if p.length = 3 ∨ p.length = 4 then 0 else 1) := by
  have htr := pyTruthy_some hne
  by_cases hlen : p.length = 3 ∨ p.length = 4
  · have hlenOk := lenOk_of hlen
    have hwn : ∀ q, writeOf ex posix (some p) rootPath t q = none :=
      fun q => writeOf_invalid ex posix rootPath t q p hne hbad
    unfold main process_path
    simp only [htr, hlenOk, Bool.not_true, Bool.and_false, Bool.false_eq_true,
      if_false, Option.isNone_some, runCalls_eq]
    rw [runWrites_all_none ex posix (some p) rootPath t hwn]
    simp [foldWrites, hlen, hlenOk]
  · push_neg at hlen
    have hlenOk : lenOk p = false := by simp [lenOk, hlen.1, hlen.2]
    unfold main
    simp [htr, hlenOk, not_or.mpr (And.intro hlen.1 hlen.2)]

/-- C2 amended, witness at the counterexample's input. -/
theorem C2_amended_invalid_directive_witness :
    ("abc" ≠ "") ∧ parsePyIntBase8 "abc" = none
    ∧ (main true false none ["f"] (some (.file "f" 420 false))
        (some "abc") false).tree = some (.file "f" 420 false)
    ∧ (main true false none ["f"] (some (.file "f" 420 false))
        (some "abc") false).exit
      = (if ("abc" : String).length = 3 ∨ ("abc" : String).length = 4
         then 0 else 1) :=
  ⟨by decide, rfl,
    (C2_amended_invalid_directive true none ["f"] (.file "f" 420 false) "abc"
      false (by decide) rfl).1,
    (C2_amended_invalid_directive true none ["f"] (.file "f" 420 false) "abc"
      false (by decide) rfl).2⟩

/-! ## Claim C3 (the `sub/**` exclusion scenario) -/

/-- The `d/` tree of the end-to-end scenario (`d/a.txt`, `d/sub/b.txt`),
all entries initially `0o700`/`0o600`, resolved at absolute path
`/tmp/d`. -/
def scenarioTree : Entry :=
  .dir "d" 448 false
    [.file "a.txt" 384 false, .dir "sub" 448 false [.file "b.txt" 384 false]]

/-- C3 counterexample: running the scenario with exclusion `sub/**`,
`d/sub` is reported `applied 0o755` and ends with mode `0o755` — not
skipped at its original mode as the claim states.  `match_file` receives
the resolved absolute path (components `tmp/d/sub` after `normalize_file`
strips the leading slash) and the anchored pattern `sub/**` (regex
`^sub/.*$`) does not match it. -/
theorem C3_counterexample :
    ((main true false (some matchFileSubGlob) ["tmp", "d"] (some scenarioTree)
        (some "755") true).outcomes.filter fun po => po.1 = ["tmp", "d", "sub"])
      = [(["tmp", "d", "sub"], .applied 493)]
    ∧ (((main true false (some matchFileSubGlob) ["tmp", "d"]
        (some scenarioTree) (some "755") true).tree.bind
          (Entry.find? ["sub"])).map Entry.mode)
      = some 493 :=
  ⟨rfl, rfl⟩

/-- C3 amended: in the scenario tree at `/tmp/d` with `permissions="755"`,
`recursive=true` and exclusion pattern `sub/**`, *all four* entries (`d`,
`d/a.txt`, `d/sub`, `d/sub/b.txt`) have their mode replaced by `0o755` and
are reported applied, and the run exits 0: since matching is done against
the absolute resolved path (with the leading slash stripped), the relative
anchored pattern `sub/**` excludes nothing here. -/
theorem C3_amended_nothing_excluded :
    main true false (some matchFileSubGlob) ["tmp", "d"] (some scenarioTree)
        (some "755") true
      = ⟨some (.dir "d" 493 false
            [.file "a.txt" 493 false,
             .dir "sub" 493 false [.file "b.txt" 493 false]]),
         [(["tmp", "d"], .applied 493),
          (["tmp", "d", "a.txt"], .applied 493),
          (["tmp", "d", "sub"], .applied 493),
          (["tmp", "d", "sub", "b.txt"], .applied 493)],
         0⟩ :=
  rfl

/-! ## Claim C7 (recursion gating) -/

/-- C7: for a directory root with a single file child, no exclusions and a
valid explicit directive, `recursive=false` changes only the directory's
own mode and leaves the child untouched, while `recursive=true` changes
both. -/
theorem C7_recursion_gating (posix : Bool) (p : String) (dn fn : String)
    (dm fm : Nat) (rootPath : List String)
    (hdig : ∀ c ∈ p.data, isOctDigit c = true)
    (hlen : p.length = 3 ∨ p.length = 4) :
    (main posix false none rootPath
        (some (.dir dn dm false [.file fn fm false])) (some p) false).tree
      = some (.dir dn (octValue p) false [.file fn fm false])
    ∧ (main posix false none rootPath
        (some (.dir dn dm false [.file fn fm false])) (some p) true).tree
      = some (.dir dn (octValue p) false [.file fn (octValue p) false]) := by
  have hlenOk := lenOk_of hlen
  have htr := pyTruthy_some (ne_empty_of_len34 hlen)
  have hdrop : rootPath.drop rootPath.length = ([] : List String) :=
    List.drop_length _
  have hstep1 : step none posix (some p) rootPath
      (.dir dn dm false [.file fn fm false]) rootPath
      = (.dir dn (octValue p) false [.file fn fm false],
         .applied (octValue p)) := by
    rw [step_explicit_ok none posix p rootPath rootPath
      (.dir dn dm false [.file fn fm false])
      (.dir dn dm false [.file fn fm false])
      hdig hlen (by rw [hdrop]; rfl) rfl rfl, hdrop]
    rfl
  constructor
  · unfold main process_path
    simp only [htr, hlenOk, Bool.not_true, Bool.and_false, Bool.false_eq_true,
      if_false, Option.isNone_some]
    have hcalls : processCalls rootPath (.dir dn dm false [.file fn fm false])
        false = [rootPath] := by
      simp [processCalls]
    rw [hcalls]
    simp [runCalls, hstep1, hlenOk]
  · unfold main process_path
    simp only [htr, hlenOk, Bool.not_true, Bool.and_false, Bool.false_eq_true,
      if_false, Option.isNone_some]
    have hcalls : processCalls rootPath (.dir dn dm false [.file fn fm false])
        true = [rootPath, rootPath ++ [fn]] := by
      simp [processCalls, walkCalls, walkCallsList, Entry.isDir, Entry.name]
    rw [hcalls]
    have hdrop2 : (rootPath ++ [fn]).drop rootPath.length = [fn] := by
      simp
    have hfind2 : Entry.find? [fn] (.dir dn (octValue p) false
        [.file fn fm false]) = some (.file fn fm false) := by
      simp [Entry.find?, findChild, Entry.name]
    have hstep2 : step none posix (some p) rootPath
        (.dir dn (octValue p) false [.file fn fm false]) (rootPath ++ [fn])
        = (.dir dn (octValue p) false [.file fn (octValue p) false],
           .applied (octValue p)) := by
      rw [step_explicit_ok none posix p rootPath (rootPath ++ [fn])
        (.dir dn (octValue p) false [.file fn fm false]) (.file fn fm false)
        hdig hlen (by rw [hdrop2]; exact hfind2) rfl rfl, hdrop2]
      simp [Entry.setMode, Entry.name]
    simp [runCalls, hstep1, hstep2, hlenOk]

/-- C7 witness: the concrete tree `d/` with child `f`, directive `"755"`,
at absolute path `/d`. -/
theorem C7_recursion_gating_witness :
    (∀ c ∈ ("755" : String).data, isOctDigit c = true)
    ∧ (("755" : String).length = 3 ∨ ("755" : String).length = 4)
    ∧ (main true false none ["d"]
        (some (.dir "d" 448 false [.file "f" 420 false])) (some "755")
        false).tree
      = some (.dir "d" (octValue "755") false [.file "f" 420 false])
    ∧ (main true false none ["d"]
        (some (.dir "d" 448 false [.file "f" 420 false])) (some "755")
        true).tree
      = some (.dir "d" (octValue "755") false [.file "f" (octValue "755") false]) :=
  ⟨by decide, by decide,
    (C7_recursion_gating true "755" "d" "f" 448 420 ["d"]
      (by decide) (by decide)).1,
    (C7_recursion_gating true "755" "d" "f" 448 420 ["d"]
      (by decide) (by decide)).2⟩

/-! ## Claim C8 (idempotence of a run) -/

/-- C8: running the tool twice in succession — the second run starting
from the filesystem the first run left behind, with the same directive,
matcher and recursion flag — yields the same final permission bits on
every entry and the same exit code as the first run.  Mode writes are
absolute (never functions of the previous bits), mode changes never alter
the traversal (names and kinds are untouched), and whether a given
entry's `chmod` fails is a fixed property of the entry. -/
theorem C8_run_idempotent (posix ef : Bool) (ex : Option (List String → Bool))
    (rootPath : List String) (fs : Option Entry) (perms : Option String)
    (recursive : Bool) :
    (main posix ef ex rootPath
        (main posix ef ex rootPath fs perms recursive).tree perms
        recursive).tree
      = (main posix ef ex rootPath fs perms recursive).tree
    ∧ (main posix ef ex rootPath
        (main posix ef ex rootPath fs perms recursive).tree perms
        recursive).exit
      = (main posix ef ex rootPath fs perms recursive).exit := by
  cases ef with
  | true => exact ⟨rfl, rfl⟩
  | false =>
    cases fs with
    | none => exact ⟨rfl, rfl⟩
    | some t =>
      by_cases hg : (pyTruthy perms && !lenOk (perms.getD "")) = true
      · constructor <;> simp [main, hg]
      · have hg' : (pyTruthy perms && !lenOk (perms.getD "")) = false :=
          Bool.not_eq_true _ ▸ Bool.eq_false_iff.mpr hg
        have h1 : main posix false ex rootPath (some t) perms recursive
            = ⟨some (foldWrites t (runWrites ex posix perms rootPath t
                  (processCalls rootPath t recursive))),
               (processCalls rootPath t recursive).map
                 fun q => (q, callOutcome ex posix perms rootPath t q),
               0⟩ := by
          unfold main process_path
          simp [hg', runCalls_eq]
        have hcalls2 : processCalls rootPath
            (foldWrites t (runWrites ex posix perms rootPath t
              (processCalls rootPath t recursive))) recursive
            = processCalls rootPath t recursive :=
          processCalls_foldWrites rootPath _ t recursive
        have habs : foldWrites
            (foldWrites t (runWrites ex posix perms rootPath t
              (processCalls rootPath t recursive)))
            (runWrites ex posix perms rootPath t
              (processCalls rootPath t recursive))
            = foldWrites t (runWrites ex posix perms rootPath t
                (processCalls rootPath t recursive)) :=
          foldWrites_absorb _ _ (List.Sublist.refl _) t
        rw [h1]
        constructor
        · show (main posix false ex rootPath (some _) perms recursive).tree = _
          unfold main process_path
          simp [hg', runCalls_eq, hcalls2, runWrites_foldWrites, habs]
        · show (main posix false ex rootPath (some _) perms recursive).exit = _
          unfold main process_path
          simp [hg', runCalls_eq]

/-! ## Claim C9 (no entry is visited twice by one traversal) -/

theorem nameFresh_spec {n : String} :
    ∀ {cs : List Entry}, nameFresh n cs = true → ∀ c ∈ cs, c.name ≠ n
  | [], _, c, hc => absurd hc (List.not_mem_nil c)
  | e :: rest, h, c, hc => by
    unfold nameFresh at h
    simp only [Bool.and_eq_true] at h
    obtain ⟨h1, h2⟩ := h
    rcases List.mem_cons.mp hc with rfl | hc'
    · simpa using h1
    · exact nameFresh_spec h2 c hc'

theorem wfChildren_cons {c : Entry} {rest : List Entry} :
    wfChildren (c :: rest) = true
      ↔ Entry.wf c = true ∧ nameFresh c.name rest = true
        ∧ wfChildren rest = true := by
  simp [wfChildren, Bool.and_eq_true, and_assoc]

theorem wfChildren_names_nodup :
    ∀ cs : List Entry, wfChildren cs = true → (cs.map Entry.name).Nodup
  | [], _ => List.nodup_nil
  | c :: rest, h => by
    obtain ⟨h1, h2, h3⟩ := wfChildren_cons.mp h
    refine List.nodup_cons.mpr ⟨?_, wfChildren_names_nodup rest h3⟩
    intro hmem
    obtain ⟨c', hc', he⟩ := List.mem_map.mp hmem
    exact nameFresh_spec h2 c' hc' he

mutual
theorem mem_walkCalls :
    ∀ (t : Entry) (sp q : List String), q ∈ walkCalls sp t →
      ∃ r, r ≠ [] ∧ q = sp ++ r
  | .file n m f, sp, q, h => by simp [walkCalls] at h
  | .dir n m f cs, sp, q, h => by
    rw [walkCalls] at h
    rcases List.mem_append.mp h with h' | hC
    · rcases List.mem_append.mp h' with hA | hB
      · obtain ⟨c, -, rfl⟩ := List.mem_map.mp hA
        exact ⟨[c.name], by simp, rfl⟩
      · obtain ⟨c, -, rfl⟩ := List.mem_map.mp hB
        exact ⟨[c.name], by simp, rfl⟩
    · obtain ⟨c, -, -, r, hr, rfl⟩ := mem_walkCallsList cs sp q hC
      exact ⟨c.name :: r, by simp, rfl⟩

theorem mem_walkCallsList :
    ∀ (cs : List Entry) (sp q : List String), q ∈ walkCallsList sp cs →
      ∃ c, c ∈ cs ∧ c.isDir = true ∧ ∃ r, r ≠ [] ∧ q = sp ++ (c.name :: r)
  | [], sp, q, h => by simp [walkCallsList] at h
  | c :: rest, sp, q, h => by
    rw [walkCallsList] at h
    rcases List.mem_append.mp h with h1 | h2
    · by_cases hd : c.isDir = true
      · rw [if_pos hd] at h1
        obtain ⟨r, hr, he⟩ := mem_walkCalls c (sp ++ [c.name]) q h1
        refine ⟨c, List.mem_cons_self c rest, hd, r, hr, ?_⟩
        rw [he, List.append_assoc]
        rfl
      · rw [if_neg hd] at h1
        exact absurd h1 (List.not_mem_nil q)
    · obtain ⟨c', hc', hd', r, hr, he⟩ := mem_walkCallsList rest sp q h2
      exact ⟨c', List.mem_cons_of_mem c hc', hd', r, hr, he⟩
end

mutual
theorem nodup_walkCalls :
    ∀ (t : Entry) (sp : List String), Entry.wf t = true →
      (walkCalls sp t).Nodup
  | .file n m f, sp, _ => by simp [walkCalls]
  | .dir n m f cs, sp, hwf => by
    have hch : wfChildren cs = true := hwf
    have hnames := wfChildren_names_nodup cs hch
    have hInj : Function.Injective (fun nm : String => sp ++ [nm]) := by
      intro a b hab
      simpa using List.append_cancel_left hab
    have hpart : ∀ p : Entry → Bool,
        ((cs.filter p).map fun c => sp ++ [c.name]).Nodup := by
      intro p
      have hmm : (cs.filter p).map (fun c => sp ++ [c.name])
          = ((cs.filter p).map Entry.name).map fun nm => sp ++ [nm] := by
        rw [List.map_map]
        rfl
      rw [hmm]
      exact List.Nodup.map hInj
        (List.Nodup.sublist (List.Sublist.map Entry.name cs.filter_sublist)
          hnames)
    have hsing : ∀ (nm : String) (q : List String), q = sp ++ [nm] →
        q ∈ walkCallsList sp cs → False := by
      intro nm q hq hmem
      obtain ⟨c, -, -, r, hr, he⟩ := mem_walkCallsList cs sp q hmem
      rw [hq] at he
      have hcan := List.append_cancel_left he
      injection hcan with h1 h2
      exact hr h2.symm
    rw [walkCalls]
    refine List.nodup_append.mpr
      ⟨List.nodup_append.mpr ⟨hpart _, hpart _, ?_⟩,
       nodup_walkCallsList cs sp hch, ?_⟩
    · intro q hqA hqB
      obtain ⟨c1, hc1, he1⟩ := List.mem_map.mp hqA
      obtain ⟨c2, hc2, he2⟩ := List.mem_map.mp hqB
      have hn : c1.name = c2.name := by
        simpa using List.append_cancel_left (he1.trans he2.symm)
      obtain ⟨hc1m, hd1⟩ := List.mem_filter.mp hc1
      obtain ⟨hc2m, hd2⟩ := List.mem_filter.mp hc2
      have hee : c1 = c2 := List.inj_on_of_nodup_map hnames hc1m hc2m hn
      subst hee
      have hd1' : c1.isDir = false := by simpa using hd1
      rw [hd1'] at hd2
      exact Bool.false_ne_true hd2
    · intro q hqAB hqC
      rcases List.mem_append.mp hqAB with hqA | hqB
      · obtain ⟨c1, hc1, he1⟩ := List.mem_map.mp hqA
        exact hsing c1.name q he1.symm hqC
      · obtain ⟨c2, hc2, he2⟩ := List.mem_map.mp hqB
        exact hsing c2.name q he2.symm hqC

theorem nodup_walkCallsList :
    ∀ (cs : List Entry) (sp : List String), wfChildren cs = true →
      (walkCallsList sp cs).Nodup
  | [], sp, _ => by simp [walkCallsList]
  | c :: rest, sp, h => by
    obtain ⟨h1, h2, h3⟩ := wfChildren_cons.mp h
    rw [walkCallsList]
    refine List.nodup_append.mpr
      ⟨?_, nodup_walkCallsList rest sp h3, ?_⟩
    · by_cases hd : c.isDir = true
      · rw [if_pos hd]
        exact nodup_walkCalls c (sp ++ [c.name]) h1
      · rw [if_neg hd]
        exact List.nodup_nil
    · intro q hq1 hq2
      by_cases hd : c.isDir = true
      · rw [if_pos hd] at hq1
        obtain ⟨r, hr, he⟩ := mem_walkCalls c (sp ++ [c.name]) q hq1
        obtain ⟨c', hc', -, r', -, he'⟩ := mem_walkCallsList rest sp q hq2
        rw [he'] at he
        rw [List.append_assoc] at he
        have hcan := List.append_cancel_left he
        injection hcan with hnm htl
        exact nameFresh_spec h2 c' hc' hnm
      · rw [if_neg hd] at hq1
        exact absurd hq1 (List.not_mem_nil q)
end

theorem processCalls_nodup (t : Entry) (rootPath : List String)
    (recursive : Bool) (hwf : Entry.wf t = true) :
    (processCalls rootPath t recursive).Nodup := by
  unfold processCalls
  refine List.nodup_cons.mpr ⟨?_, ?_⟩
  · intro hmem
    by_cases hc : (t.isDir && recursive) = true
    · rw [if_pos hc] at hmem
      obtain ⟨r, hr, he⟩ := mem_walkCalls t rootPath rootPath hmem
      have hl := congrArg List.length he
      rw [List.length_append] at hl
      have hr0 : r.length = 0 := by omega
      exact hr (List.length_eq_zero.mp hr0)
    · rw [if_neg hc] at hmem
      exact absurd hmem (List.not_mem_nil _)
  · by_cases hc : (t.isDir && recursive) = true
    · rw [if_pos hc]
      exact nodup_walkCalls t rootPath hwf
    · rw [if_neg hc]
      exact List.nodup_nil

/-- C9: during one recursive traversal, every path — in particular every
descendant directory — has `apply_permission_change` invoked on it at most
once: the dual enumeration (the `files` component of `os.walk` plus the
explicit `os.listdir` pass filtered by `is_dir`) enumerates disjoint
entries at each level, and the walk descends into each subdirectory
exactly once. -/
theorem count_le_one_of_nodup {l : List (List String)} (h : l.Nodup)
    (q : List String) : l.count q ≤ 1 := by
  induction l with
  | nil => simp
  | cons a l ih =>
    obtain ⟨hna, hnd⟩ := List.nodup_cons.mp h
    rw [List.count_cons]
    by_cases he : q = a
    · subst he
      have h0 : l.count q = 0 := List.count_eq_zero.mpr hna
      simp [h0]
    · have hb : (q == a) = false := beq_eq_false_iff_ne.mpr he
      have hne : ¬ (a = q) := fun h => he h.symm
      simp [hb, hne]
      exact ih hnd

theorem C9_no_double_mutation (t : Entry) (rootPath : List String)
    (q : List String) (hwf : Entry.wf t = true) :
    (processCalls rootPath t true).count q ≤ 1 :=
  count_le_one_of_nodup (processCalls_nodup t rootPath true hwf) q

/-- C9 witness: the two-level tree, counting the calls on the
subdirectory. -/
theorem C9_no_double_mutation_witness :
    Entry.wf (.dir "d" 448 false
      [.file "a" 384 false, .dir "s" 448 false [.file "b" 384 false]]) = true
    ∧ (processCalls ["r"] (.dir "d" 448 false
        [.file "a" 384 false, .dir "s" 448 false [.file "b" 384 false]])
        true).count ["r", "s"] ≤ 1 :=
  ⟨rfl,
    C9_no_double_mutation
      (.dir "d" 448 false
        [.file "a" 384 false, .dir "s" 448 false [.file "b" 384 false]])
      ["r"] ["r", "s"] rfl⟩

end PermSim
